import Mathlib

/-!
Shallow embedding of the two concurrent sorted-set linked lists of this
repository in their single-threaded (sequential) semantics:

* `FineGrainedList` — hand-over-hand lock coupling.  Sequentially the locks
  are invisible, so the state is the chain of values hanging off the
  sentinel, embedded as a `List Int`.

* `MarkedList` — lazy (optimistic) synchronization with a `removed` mark.
  The state keeps the reachable chain of nodes (each with an allocation
  identifier standing for its address, its value and its `removed` flag),
  the next fresh identifier, and the unlinked-but-not-freed nodes
  (`graveyard`), since `MarkedList::remove` never frees memory.

Every definition is translated from the C++ source
(`src/unnamed/part_001` and `src/2025/lecture10/optimistic-locking.cpp`);
the traversal `while (curr && curr->value < val)` becomes structural
recursion on the chain.
-/

/-- Value stored in the sentinel head node: both constructors run
`head = new Node(-1)`. -/
def sentinelValue : Int := -1

/-- Input domain of `insert`, `remove`, `contains`: the C++ methods take a
plain `int val` and perform no validation, so every integer is a valid
input. -/
def validInput (_ : Int) : Prop := True

/-- A mutating operation of a single-threaded history (`contains` is pure,
so a history records only inserts and removes; `contains` is queried on the
state after any prefix). -/
inductive Op where
  | ins : Int → Op
  | rem : Int → Op
deriving DecidableEq, Repr

/-- Number of `insert(v)` calls in a history, for a fixed value `v`. -/
def insCount (v : Int) : List Op → Nat
  | [] => 0
  | Op.ins w :: ops => (if w = v then 1 else 0) + insCount v ops
  | Op.rem _ :: ops => insCount v ops

/-- Values passed to `insert` somewhere in a history. -/
def insertedValues : List Op → List Int
  | [] => []
  | Op.ins w :: ops => w :: insertedValues ops
  | Op.rem _ :: ops => insertedValues ops

/-- Sorted insertion of `v` into a snapshot, following the spec's words
(`the resulting snapshot equals the sorted insertion of v into the
previous snapshot`); stated via Mathlib's `List.orderedInsert` and used
only as the refinement comparison point for the code-derived insert. -/
def specSortedInsert (v : Int) (l : List Int) : List Int :=
  List.orderedInsert (· ≤ ·) v l

namespace FineGrainedList

/-- Embeds `FineGrainedList::insert`: traverse while the current node
exists and its value is strictly below `val`, then splice
`new Node(val, curr)` in as the predecessor's successor.  The list is the
chain after the sentinel. -/
def insert (l : List Int) (val : Int) : List Int :=
  match l with
  | [] => [val]
  | c :: rest => if c < val then c :: insert rest val else val :: c :: rest

/-- Embeds `FineGrainedList::remove`: traverse while the current node
exists and its value is strictly below `val`; if the stopping node exists
and holds exactly `val`, unlink it (`pred->next = curr->next`) and return
`true`, else return `false` with the list unchanged. -/
def remove (l : List Int) (val : Int) : Bool × List Int :=
  match l with
  | [] => (false, [])
  | c :: rest =>
    if c < val then
      let r := remove rest val
      (r.1, c :: r.2)
    else if c = val then (true, rest)
    else (false, c :: rest)

/-- Embeds `FineGrainedList::contains`: traverse while the current node
exists and its value is strictly below `val`; found iff the stopping node
exists and holds exactly `val`. -/
def contains (l : List Int) (val : Int) : Bool :=
  match l with
  | [] => false
  | c :: rest => if c < val then contains rest val else c == val

/-- Run a history of operations from a given chain state. -/
def runFrom (l : List Int) : List Op → List Int
  | [] => l
  | Op.ins v :: ops => runFrom (insert l v) ops
  | Op.rem v :: ops => runFrom (remove l v).2 ops

/-- Run a history from the freshly constructed (empty) list. -/
def run (ops : List Op) : List Int := runFrom [] ops

/-- The pointer chain including the sentinel node itself. -/
def fullChain (l : List Int) : List Int := sentinelValue :: l

/-- Number of `remove(v)` calls that return `true` along a history executed
from state `l`, for the fixed value `v`. -/
def remTrueFrom (v : Int) (l : List Int) : List Op → Nat
  | [] => 0
  | Op.ins w :: ops => remTrueFrom v (insert l w) ops
  | Op.rem w :: ops =>
    let r := remove l w
    (if r.1 && w = v then 1 else 0) + remTrueFrom v r.2 ops

end FineGrainedList

namespace MarkedList

/-- A `MarkedList::Node` as seen by the sequential embedding: `id` is a
fresh allocation identifier standing for the node's address, `value` the
stored key, `removed` the logical-deletion mark.  The `next` pointer is
represented by adjacency in the chain list. -/
structure MNode where
  id : Nat
  value : Int
  removed : Bool
deriving DecidableEq, Repr

/-- Chain effect of `MarkedList::insert` (the body executed once
validation passes): traverse while the current node exists and its value
is strictly below `val`, then splice `new Node(val, curr)` with fresh
identifier `nid`. -/
def insertChain (nid : Nat) (c : List MNode) (val : Int) : List MNode :=
  match c with
  | [] => [⟨nid, val, false⟩]
  | n :: rest =>
    if n.value < val then n :: insertChain nid rest val
    else ⟨nid, val, false⟩ :: n :: rest

/-- Chain effect of `MarkedList::remove` (the body executed once
validation passes): traverse as for insert; if the stopping node exists
and holds exactly `val`, mark it `removed := true`, unlink it, and hand
the unlinked node back (third component) — the code does not free it.
Otherwise report `false` with the chain unchanged. -/
def removeChain (c : List MNode) (val : Int) : Bool × List MNode × Option MNode :=
  match c with
  | [] => (false, [], none)
  | n :: rest =>
    if n.value < val then
      let r := removeChain rest val
      (r.1, n :: r.2.1, r.2.2)
    else if n.value = val then (true, rest, some { n with removed := true })
    else (false, n :: rest, none)

/-- Chain effect of `MarkedList::contains`: traverse as for insert; found
iff the stopping node exists, is not marked removed, and holds exactly
`val`. -/
def containsChain (c : List MNode) (val : Int) : Bool :=
  match c with
  | [] => false
  | n :: rest =>
    if n.value < val then containsChain rest val
    else (!n.removed && n.value == val)

/-- Sequential state of a `MarkedList`: the reachable chain after the
sentinel, the next fresh allocation identifier, and the logically removed
nodes that were unlinked but never freed. -/
structure State where
  chain : List MNode
  nextId : Nat
  graveyard : List MNode
deriving DecidableEq, Repr

/-- The freshly constructed list: only the sentinel, nothing allocated. -/
def initState : State := ⟨[], 0, []⟩

/-- `MarkedList::insert` on the sequential state. -/
def insert (s : State) (val : Int) : State :=
  { s with chain := insertChain s.nextId s.chain val, nextId := s.nextId + 1 }

/-- `MarkedList::remove` on the sequential state: the unlinked node is kept
in the graveyard, matching the comment that it `remains for potential safe
reclamation`. -/
def remove (s : State) (val : Int) : Bool × State :=
  let r := removeChain s.chain val
  (r.1, { s with
            chain := r.2.1,
            graveyard :=
              match r.2.2 with
              | some n => n :: s.graveyard
              | none => s.graveyard })

/-- `MarkedList::contains` on the sequential state. -/
def contains (s : State) (val : Int) : Bool := containsChain s.chain val

/-- `MarkedList::printList`: the values of reachable nodes that are not
marked removed, in chain order. -/
def snapshot (s : State) : List Int :=
  (s.chain.filter (fun n => !n.removed)).map (fun n => n.value)

/-- Run a history of operations from a given state. -/
def runFrom (s : State) : List Op → State
  | [] => s
  | Op.ins v :: ops => runFrom (insert s v) ops
  | Op.rem v :: ops => runFrom (remove s v).2 ops

/-- Run a history from the freshly constructed list. -/
def run (ops : List Op) : State := runFrom initState ops

/-- Number of `remove(v)` calls that return `true` along a history executed
from state `s`, for the fixed value `v`. -/
def remTrueFrom (v : Int) (s : State) : List Op → Nat
  | [] => 0
  | Op.ins w :: ops => remTrueFrom v (insert s w) ops
  | Op.rem w :: ops =>
    let r := remove s w
    (if r.1 && w = v then 1 else 0) + remTrueFrom v r.2 ops

/-- A node as `MarkedList::validate` sees it: its address (`addr`), its
`next` pointer (the successor's address, or none), and its fields. -/
structure VNode where
  addr : Nat
  value : Int
  next : Option Nat
  removed : Bool
deriving DecidableEq, Repr

/-- Embeds `MarkedList::validate`:
`!pred->removed && !(curr && curr->removed) && pred->next == curr`.
Pointer comparison becomes address comparison. -/
def validate (pred : VNode) (curr : Option VNode) : Bool :=
  !pred.removed
    && !(match curr with | some c => c.removed | none => false)
    && pred.next == Option.map (fun c => c.addr) curr

/-- View of the list at one instant as addressed nodes: address 0 is the
sentinel, the node at chain position `j` has address `j + 1`, and `next`
holds the successor's address.  Used to run `validate` on the pair the
unlocked traversal picked. -/
def vnodeAt (c : List MNode) : Nat → Option VNode
  | 0 => some ⟨0, sentinelValue, if c.isEmpty then none else some 1, false⟩
  | j + 1 =>
    (c.get? j).map fun n =>
      ⟨j + 1, n.value, if j + 1 < c.length then some (j + 2) else none, n.removed⟩

/-- Stopping position of the unlocked traversal
`while (curr && curr->value < val)`: the number of leading chain nodes with
value strictly below `val`.  The predecessor is the node at this position
in the sentinel-rooted addressing (`vnodeAt`), the candidate successor the
one after it. -/
def findPos (c : List MNode) (val : Int) : Nat :=
  match c with
  | [] => 0
  | n :: rest => if n.value < val then findPos rest val + 1 else 0

/-- The `validate(pred, curr)` call an operation on value `val` performs in
a single-threaded run: the state cannot change between the unlocked
traversal and the locked validation, so `pred` and `curr` are read off the
same chain the traversal inspected. -/
def seqValidate (c : List MNode) (val : Int) : Bool :=
  match vnodeAt c (findPos c val) with
  | some pred => validate pred (vnodeAt c (findPos c val + 1))
  | none => false

/-- The retry loop of `MarkedList::insert` (`while (true) { ...; if
(!validate(pred, curr)) continue; ... }`), with explicit fuel: each
iteration redoes the traversal and validation on the current state and
performs the splice when validation passes. -/
def insertLoop (fuel : Nat) (s : State) (val : Int) : Option State :=
  match fuel with
  | 0 => none
  | fuel + 1 =>
    if seqValidate s.chain val then some (insert s val) else insertLoop fuel s val

/-- The retry loop of `MarkedList::remove`, with explicit fuel. -/
def removeLoop (fuel : Nat) (s : State) (val : Int) : Option (Bool × State) :=
  match fuel with
  | 0 => none
  | fuel + 1 =>
    if seqValidate s.chain val then some (remove s val) else removeLoop fuel s val

/-- The retry loop of `MarkedList::contains`, with explicit fuel. -/
def containsLoop (fuel : Nat) (s : State) (val : Int) : Option Bool :=
  match fuel with
  | 0 => none
  | fuel + 1 =>
    if seqValidate s.chain val then some (contains s val) else containsLoop fuel s val

/-- The values along a chain of nodes. -/
def values (c : List MNode) : List Int := c.map (fun n => n.value)

/-- No reachable node is marked removed (sequentially, marking and
unlinking happen in the same critical section). -/
def chainOK (c : List MNode) : Prop := ∀ n ∈ c, n.removed = false

/-- Well-formedness of a sequential state: no reachable node is marked,
every reachable node's identifier is below the fresh counter, and
identifiers are pairwise distinct (each stands for a distinct address). -/
def Good (s : State) : Prop :=
  chainOK s.chain ∧ (∀ n ∈ s.chain, n.id < s.nextId) ∧ (s.chain.map MNode.id).Nodup

end MarkedList

/-! Helper lemmas about the lock-coupling variant. -/

namespace FineGrainedList

theorem insert_eq_orderedInsert (l : List Int) (v : Int) :
    insert l v = List.orderedInsert (· ≤ ·) v l := by
  induction l with
  | nil => rfl
  | cons c rest ih =>
    simp only [insert, List.orderedInsert, ih]
    by_cases h : c < v
    · rw [if_pos h, if_neg (by omega)]
    · rw [if_neg h, if_pos (by omega)]

theorem insert_perm (l : List Int) (v : Int) : (insert l v).Perm (v :: l) := by
  rw [insert_eq_orderedInsert]
  exact List.perm_orderedInsert _ v l

theorem length_insert (l : List Int) (v : Int) :
    (insert l v).length = l.length + 1 := by
  rw [(insert_perm l v).length_eq]
  rfl

theorem count_insert (l : List Int) (v w : Int) :
    List.count w (insert l v) = List.count w l + if v = w then 1 else 0 := by
  rw [(insert_perm l v).count_eq, List.count_cons]
  simp

theorem sorted_insert {l : List Int} (v : Int) (h : List.Sorted (· ≤ ·) l) :
    List.Sorted (· ≤ ·) (insert l v) := by
  rw [insert_eq_orderedInsert]
  exact List.Sorted.orderedInsert v l h

theorem remove_sublist (l : List Int) (v : Int) : (remove l v).2.Sublist l := by
  induction l with
  | nil => simp [remove]
  | cons c rest ih =>
    by_cases h1 : c < v
    · simpa [remove, h1] using ih.cons₂ c
    · by_cases h2 : c = v
      · simp [remove, h1, h2, List.sublist_cons_self]
      · simp [remove, h1, h2]

theorem remove_bool {l : List Int} (v : Int) (h : List.Sorted (· ≤ ·) l) :
    (remove l v).1 = decide (v ∈ l) := by
  induction l with
  | nil => simp [remove]
  | cons c rest ih =>
    rw [List.sorted_cons] at h
    by_cases h1 : c < v
    · have hvc : ¬ v = c := by omega
      simp [remove, h1, ih h.2, List.mem_cons, hvc]
    · by_cases h2 : c = v
      · simp [remove, h1, h2, List.mem_cons]
      · have hvc : ¬ v = c := fun hvv => h2 hvv.symm
        have hnr : v ∉ rest := by
          intro hm
          have h3 := h.1 v hm
          omega
        simp [remove, h1, h2, List.mem_cons, hvc, hnr]

theorem remove_snd {l : List Int} (v : Int) (h : List.Sorted (· ≤ ·) l) :
    (remove l v).2 = l.erase v := by
  induction l with
  | nil => simp [remove]
  | cons c rest ih =>
    rw [List.sorted_cons] at h
    by_cases h1 : c < v
    · have hcv : ¬ c = v := by omega
      simp [remove, h1, ih h.2, List.erase_cons, hcv]
    · by_cases h2 : c = v
      · simp [remove, h1, h2, List.erase_cons]
      · have hnr : v ∉ rest := by
          intro hm
          have h3 := h.1 v hm
          omega
        simp [remove, h1, h2, List.erase_cons, List.erase_of_not_mem hnr]

theorem remove_true_mem (l : List Int) (v : Int) :
    (remove l v).1 = true → v ∈ l := by
  induction l with
  | nil => simp [remove]
  | cons c rest ih =>
    by_cases h1 : c < v
    · simp only [remove, if_pos h1, List.mem_cons]
      exact fun h => Or.inr (ih h)
    · by_cases h2 : c = v
      · simp [remove, h1, h2, List.mem_cons]
      · simp [remove, h1, h2]

theorem contains_true_mem (l : List Int) (v : Int) :
    contains l v = true → v ∈ l := by
  induction l with
  | nil => simp [contains]
  | cons c rest ih =>
    by_cases h1 : c < v
    · simp only [contains, if_pos h1, List.mem_cons]
      exact fun h => Or.inr (ih h)
    · simp only [contains, if_neg h1, beq_iff_eq, List.mem_cons]
      exact fun h => Or.inl h.symm

theorem contains_eq_mem {l : List Int} (v : Int) (h : List.Sorted (· ≤ ·) l) :
    contains l v = decide (v ∈ l) := by
  induction l with
  | nil => simp [contains]
  | cons c rest ih =>
    rw [List.sorted_cons] at h
    by_cases h1 : c < v
    · have hvc : ¬ v = c := by omega
      simp [contains, h1, ih h.2, List.mem_cons, hvc]
    · by_cases h2 : c = v
      · simp [contains, h1, h2, List.mem_cons]
      · have hvc : ¬ v = c := fun hvv => h2 hvv.symm
        have hnr : v ∉ rest := by
          intro hm
          have h3 := h.1 v hm
          omega
        simp [contains, h1, h2, List.mem_cons, hvc, hnr]

theorem sorted_runFrom (ops : List Op) {l : List Int} (h : List.Sorted (· ≤ ·) l) :
    List.Sorted (· ≤ ·) (runFrom l ops) := by
  induction ops generalizing l with
  | nil => exact h
  | cons op ops ih =>
    cases op with
    | ins v => exact ih (sorted_insert v h)
    | rem v => exact ih (List.Pairwise.sublist (remove_sublist l v) h)

theorem sorted_run (ops : List Op) : List.Sorted (· ≤ ·) (run ops) :=
  sorted_runFrom ops (by simp [List.Sorted])

theorem mem_runFrom {x : Int} (ops : List Op) (l : List Int) :
    x ∈ runFrom l ops → x ∈ l ∨ x ∈ insertedValues ops := by
  induction ops generalizing l with
  | nil => exact fun h => Or.inl h
  | cons op ops ih =>
    cases op with
    | ins v =>
      intro h
      rcases ih (insert l v) h with h2 | h2
      · rcases List.mem_cons.mp ((insert_perm l v).mem_iff.mp h2) with h3 | h3
        · exact Or.inr (by simp [insertedValues, h3])
        · exact Or.inl h3
      · exact Or.inr (by simp [insertedValues, h2])
    | rem v =>
      intro h
      rcases ih (remove l v).2 h with h2 | h2
      · exact Or.inl ((remove_sublist l v).subset h2)
      · exact Or.inr (by simpa [insertedValues] using h2)

theorem count_runFrom (ops : List Op) {l : List Int} (v : Int)
    (h : List.Sorted (· ≤ ·) l) :
    List.count v (runFrom l ops) + remTrueFrom v l ops =
      List.count v l + insCount v ops := by
  induction ops generalizing l with
  | nil => simp [runFrom, remTrueFrom, insCount]
  | cons op ops ih =>
    cases op with
    | ins w =>
      have hih := ih (l := insert l w) (sorted_insert w h)
      simp only [runFrom, remTrueFrom, insCount]
      rw [hih, count_insert]
      by_cases hw : w = v <;> simp [hw] <;> omega
    | rem w =>
      have hs2 : List.Sorted (· ≤ ·) (remove l w).2 :=
        List.Pairwise.sublist (remove_sublist l w) h
      have hih := ih (l := (remove l w).2) hs2
      simp only [runFrom, remTrueFrom, insCount]
      rw [remove_snd w h] at hih ⊢
      rw [remove_bool w h]
      rw [List.count_erase] at hih
      by_cases hw : w = v
      · subst hw
        by_cases hm : w ∈ l
        · have hpos : 0 < List.count w l := List.count_pos_iff.mpr hm
          simp [hm] at hih ⊢
          omega
        · have hz : List.count w l = 0 := List.count_eq_zero.mpr hm
          simp [hm] at hih ⊢
          omega
      · simp [hw] at hih ⊢
        omega

theorem contains_run_iff (ops : List Op) (v : Int) :
    contains (run ops) v = true ↔ insCount v ops > remTrueFrom v [] ops := by
  have hbal := count_runFrom ops (l := []) v (by simp [List.Sorted])
  rw [contains_eq_mem v (sorted_run ops), decide_eq_true_iff,
    ← List.count_pos_iff (l := run ops)]
  simp only [run, List.count_nil, Nat.zero_add] at hbal ⊢
  omega

end FineGrainedList

/-! Helper lemmas about the lazy variant and its simulation of the
lock-coupling variant. -/

namespace MarkedList

theorem values_insertChain (nid : Nat) (c : List MNode) (v : Int) :
    values (insertChain nid c v) = FineGrainedList.insert (values c) v := by
  induction c with
  | nil => rfl
  | cons n rest ih =>
    simp only [values] at ih
    by_cases h : n.value < v <;>
      simp [insertChain, values, FineGrainedList.insert, h, ih]

theorem removeChain_fst (c : List MNode) (v : Int) :
    (removeChain c v).1 = (FineGrainedList.remove (values c) v).1 := by
  induction c with
  | nil => rfl
  | cons n rest ih =>
    by_cases h1 : n.value < v
    · simp [removeChain, FineGrainedList.remove, values, h1, ih]
    · by_cases h2 : n.value = v <;>
        simp [removeChain, FineGrainedList.remove, values, h1, h2]

theorem removeChain_values (c : List MNode) (v : Int) :
    values (removeChain c v).2.1 = (FineGrainedList.remove (values c) v).2 := by
  induction c with
  | nil => rfl
  | cons n rest ih =>
    simp only [values] at ih
    by_cases h1 : n.value < v
    · simp [removeChain, FineGrainedList.remove, values, h1, ih]
    · by_cases h2 : n.value = v <;>
        simp [removeChain, FineGrainedList.remove, values, h1, h2]

theorem removeChain_sublist (c : List MNode) (v : Int) :
    (removeChain c v).2.1.Sublist c := by
  induction c with
  | nil => simp [removeChain]
  | cons n rest ih =>
    by_cases h1 : n.value < v
    · simpa [removeChain, h1] using ih.cons₂ n
    · by_cases h2 : n.value = v
      · simp [removeChain, h1, h2, List.sublist_cons_self]
      · simp [removeChain, h1, h2]

theorem containsChain_eq {c : List MNode} (v : Int) (h : chainOK c) :
    containsChain c v = FineGrainedList.contains (values c) v := by
  induction c with
  | nil => rfl
  | cons n rest ih =>
    have hn : n.removed = false := h n (List.mem_cons_self n rest)
    have hrest : chainOK rest := fun m hm => h m (List.mem_cons_of_mem n hm)
    by_cases h1 : n.value < v
    · simp [containsChain, FineGrainedList.contains, values, h1, ih hrest]
    · simp [containsChain, FineGrainedList.contains, values, h1, hn]

theorem insertChain_perm (nid : Nat) (c : List MNode) (v : Int) :
    (insertChain nid c v).Perm (⟨nid, v, false⟩ :: c) := by
  induction c with
  | nil => simp [insertChain]
  | cons n rest ih =>
    by_cases h : n.value < v
    · simp only [insertChain, if_pos h]
      exact (ih.cons n).trans (List.Perm.swap _ _ _)
    · simp [insertChain, h]

theorem chainOK_insertChain {c : List MNode} (nid : Nat) (v : Int) (h : chainOK c) :
    chainOK (insertChain nid c v) := by
  intro n hn
  rcases List.mem_cons.mp ((insertChain_perm nid c v).mem_iff.mp hn) with h2 | h2
  · rw [h2]
  · exact h n h2

theorem chainOK_sublist {c c2 : List MNode} (hs : c2.Sublist c) (h : chainOK c) :
    chainOK c2 :=
  fun n hn => h n (hs.subset hn)

theorem good_insert {s : State} (v : Int) (h : Good s) : Good (insert s v) := by
  obtain ⟨hok, hlt, hnd⟩ := h
  refine ⟨chainOK_insertChain _ _ hok, ?_, ?_⟩
  · intro n hn
    simp only [insert] at hn ⊢
    rcases List.mem_cons.mp
        ((insertChain_perm s.nextId s.chain v).mem_iff.mp hn) with h2 | h2
    · rw [h2]
      exact Nat.lt_succ_self _
    · have h3 := hlt n h2
      omega
  · simp only [insert]
    rw [((insertChain_perm s.nextId s.chain v).map MNode.id).nodup_iff]
    rw [List.map_cons, List.nodup_cons]
    refine ⟨?_, hnd⟩
    intro hmem
    obtain ⟨n, hn, hid⟩ := List.mem_map.mp hmem
    have h4 := hlt n hn
    have h5 : ({ id := s.nextId, value := v, removed := false } : MNode).id = s.nextId := rfl
    omega

theorem good_remove {s : State} (v : Int) (h : Good s) : Good (remove s v).2 := by
  obtain ⟨hok, hlt, hnd⟩ := h
  have hsub := removeChain_sublist s.chain v
  refine ⟨?_, ?_, ?_⟩
  · intro n hn
    exact hok n (hsub.subset (by simpa [remove] using hn))
  · intro n hn
    simp only [remove] at hn ⊢
    exact hlt n (hsub.subset hn)
  · simp only [remove]
    exact hnd.sublist (hsub.map MNode.id)

theorem good_init : Good initState := by
  refine ⟨?_, ?_, ?_⟩ <;> simp [Good, chainOK, initState]

theorem good_runFrom (ops : List Op) {s : State} (h : Good s) :
    Good (runFrom s ops) := by
  induction ops generalizing s with
  | nil => exact h
  | cons op ops ih =>
    cases op with
    | ins v => exact ih (good_insert v h)
    | rem v => exact ih (good_remove v h)

theorem good_run (ops : List Op) : Good (run ops) :=
  good_runFrom ops good_init

theorem values_runFrom (ops : List Op) (s : State) :
    values (runFrom s ops).chain = FineGrainedList.runFrom (values s.chain) ops := by
  induction ops generalizing s with
  | nil => rfl
  | cons op ops ih =>
    cases op with
    | ins v =>
      simp only [runFrom, FineGrainedList.runFrom]
      rw [ih]
      congr 1
      simp [insert, values_insertChain]
    | rem v =>
      simp only [runFrom, FineGrainedList.runFrom]
      rw [ih]
      congr 1
      simp [remove, removeChain_values]

theorem values_run (ops : List Op) :
    values (run ops).chain = FineGrainedList.run ops := by
  have h := values_runFrom ops initState
  simpa [initState, values, FineGrainedList.run] using h

theorem remove_fst_eq (s : State) (v : Int) :
    (remove s v).1 = (FineGrainedList.remove (values s.chain) v).1 := by
  simp [remove, removeChain_fst]

theorem remove_values_eq (s : State) (v : Int) :
    values (remove s v).2.chain = (FineGrainedList.remove (values s.chain) v).2 := by
  simp [remove, removeChain_values]

theorem remTrueFrom_eq (v : Int) (ops : List Op) (s : State) :
    remTrueFrom v s ops = FineGrainedList.remTrueFrom v (values s.chain) ops := by
  induction ops generalizing s with
  | nil => rfl
  | cons op ops ih =>
    cases op with
    | ins w =>
      simp only [remTrueFrom, FineGrainedList.remTrueFrom]
      rw [ih]
      congr 1
      simp [insert, values_insertChain]
    | rem w =>
      simp only [remTrueFrom, FineGrainedList.remTrueFrom]
      rw [ih, remove_fst_eq, remove_values_eq]

theorem snapshot_eq {s : State} (h : chainOK s.chain) :
    snapshot s = values s.chain := by
  unfold snapshot values
  rw [List.filter_eq_self.mpr]
  intro n hn
  simp [h n hn]

theorem contains_eq {s : State} (v : Int) (h : chainOK s.chain) :
    contains s v = FineGrainedList.contains (values s.chain) v :=
  containsChain_eq v h

theorem findPos_le (c : List MNode) (v : Int) : findPos c v ≤ c.length := by
  induction c with
  | nil => simp [findPos]
  | cons n rest ih =>
    by_cases h : n.value < v <;> simp [findPos, h] <;> omega

theorem seqValidate_true {ch : List MNode} (v : Int) (h : chainOK ch) :
    seqValidate ch v = true := by
  have hle := findPos_le ch v
  unfold seqValidate
  cases hi : findPos ch v with
  | zero =>
    cases ch with
    | nil => simp [vnodeAt, validate]
    | cons n rest =>
      have hn : n.removed = false := h n (List.mem_cons_self n rest)
      simp [vnodeAt, validate, hn]
  | succ j =>
    rw [hi] at hle
    have hj : j < ch.length := by omega
    have hget : ch[j]? = some ch[j] := List.getElem?_eq_getElem hj
    have hrm : ch[j].removed = false := h _ (List.getElem_mem hj)
    by_cases h2 : j + 1 < ch.length
    · have hget2 : ch[j + 1]? = some ch[j + 1] := List.getElem?_eq_getElem h2
      have hrm2 : ch[j + 1].removed = false := h _ (List.getElem_mem h2)
      simp [vnodeAt, hget, hget2, validate, hrm, hrm2, h2]
    · have hnone : ch[j + 1]? = none := List.getElem?_eq_none (by omega)
      simp [vnodeAt, hget, hnone, validate, hrm, h2]

theorem insertLoop_one {s : State} (v : Int) (h : chainOK s.chain) :
    insertLoop 1 s v = some (insert s v) := by
  simp [insertLoop, seqValidate_true v h]

theorem removeLoop_one {s : State} (v : Int) (h : chainOK s.chain) :
    removeLoop 1 s v = some (remove s v) := by
  simp [removeLoop, seqValidate_true v h]

theorem containsLoop_one {s : State} (v : Int) (h : chainOK s.chain) :
    containsLoop 1 s v = some (contains s v) := by
  simp [containsLoop, seqValidate_true v h]

theorem removeChain_some_id {c : List MNode} {n : MNode} (v : Int)
    (hsome : (removeChain c v).2.2 = some n) : n.id ∈ c.map MNode.id := by
  induction c with
  | nil => simp [removeChain] at hsome
  | cons m rest ih =>
    by_cases h1 : m.value < v
    · simp only [removeChain, if_pos h1] at hsome
      simpa using Or.inr (ih hsome)
    · by_cases h2 : m.value = v
      · simp only [removeChain, if_neg h1, if_pos h2, Option.some.injEq] at hsome
        simp [← hsome]
      · simp [removeChain, h1, h2] at hsome

theorem removeChain_detach {c : List MNode} (v : Int) :
    (removeChain c v).1 = true →
      ∃ n, (removeChain c v).2.2 = some n ∧ n.removed = true ∧ n.value = v ∧
        n.id ∈ c.map MNode.id := by
  induction c with
  | nil => simp [removeChain]
  | cons m rest ih =>
    by_cases h1 : m.value < v
    · simp only [removeChain, if_pos h1]
      intro ht
      obtain ⟨n, hsome, hrm, hv, hid⟩ := ih ht
      exact ⟨n, hsome, hrm, hv, by simp [hid]⟩
    · by_cases h2 : m.value = v
      · intro _
        refine ⟨{ m with removed := true }, ?_, rfl, h2, by simp⟩
        simp [removeChain, h1, h2]
      · simp [removeChain, h1, h2]

theorem removeChain_id_not_mem {c : List MNode} {n : MNode} (v : Int)
    (hnd : (c.map MNode.id).Nodup) (hsome : (removeChain c v).2.2 = some n) :
    n.id ∉ (removeChain c v).2.1.map MNode.id := by
  induction c with
  | nil => simp [removeChain] at hsome
  | cons m rest ih =>
    rw [List.map_cons, List.nodup_cons] at hnd
    by_cases h1 : m.value < v
    · simp only [removeChain, if_pos h1] at hsome ⊢
      rw [List.map_cons]
      intro hmem
      rcases List.mem_cons.mp hmem with he | he
      · exact hnd.1 (he ▸ removeChain_some_id v hsome)
      · exact ih hnd.2 hsome he
    · by_cases h2 : m.value = v
      · simp only [removeChain, if_neg h1, if_pos h2, Option.some.injEq] at hsome ⊢
        intro hmem
        apply hnd.1
        simpa [← hsome] using hmem
      · simp [removeChain, h1, h2] at hsome

theorem id_fresh_runFrom (ops : List Op) {s : State} {m : Nat}
    (hm : m < s.nextId) (hns : ∀ n ∈ s.chain, n.id ≠ m) :
    ∀ n ∈ (runFrom s ops).chain, n.id ≠ m := by
  induction ops generalizing s with
  | nil => exact hns
  | cons op ops ih =>
    cases op with
    | ins v =>
      apply ih (s := insert s v)
      · simp only [insert]
        omega
      · intro n hn
        simp only [insert] at hn
        rcases List.mem_cons.mp
            ((insertChain_perm s.nextId s.chain v).mem_iff.mp hn) with he | he
        · rw [he]
          show s.nextId ≠ m
          omega
        · exact hns n he
    | rem v =>
      apply ih (s := (remove s v).2)
      · simpa [remove] using hm
      · intro n hn
        exact hns n ((removeChain_sublist s.chain v).subset (by simpa [remove] using hn))

end MarkedList


/-! Claim theorems. -/

/-- C1: in every finite single-threaded history run from the empty set, on
either variant, `contains(v)` returns true iff the number of `insert(v)`
calls so far strictly exceeds the number of `remove(v)` calls that
returned true for that exact value. -/
theorem spec_C1 (ops : List Op) (v : Int) :
    (FineGrainedList.contains (FineGrainedList.run ops) v = true ↔
      insCount v ops > FineGrainedList.remTrueFrom v [] ops) ∧
    (MarkedList.contains (MarkedList.run ops) v = true ↔
      insCount v ops > MarkedList.remTrueFrom v MarkedList.initState ops) := by
  refine ⟨FineGrainedList.contains_run_iff ops v, ?_⟩
  have hok : MarkedList.chainOK (MarkedList.run ops).chain := (MarkedList.good_run ops).1
  rw [MarkedList.contains_eq v hok, MarkedList.values_run, MarkedList.remTrueFrom_eq]
  simp only [MarkedList.initState, MarkedList.values, List.map_nil]
  exact FineGrainedList.contains_run_iff ops v

/-- C2: from any sorted state, `insert(v)` always succeeds, adds exactly
one node holding `v` (total length up one, the count of `v` up one, all
other counts unchanged), and the new snapshot is the sorted insertion of
`v` into the old one; the lazy variant splices the same value sequence. -/
theorem spec_C2 (l : List Int) (c : List MarkedList.MNode) (nid : Nat) (v : Int)
    (hs : List.Sorted (· ≤ ·) l) (hvc : MarkedList.values c = l) :
    FineGrainedList.insert l v = specSortedInsert v l ∧
    (FineGrainedList.insert l v).length = l.length + 1 ∧
    List.count v (FineGrainedList.insert l v) = List.count v l + 1 ∧
    (∀ w, w ≠ v → List.count w (FineGrainedList.insert l v) = List.count w l) ∧
    List.Sorted (· ≤ ·) (FineGrainedList.insert l v) ∧
    MarkedList.values (MarkedList.insertChain nid c v) = FineGrainedList.insert l v := by
  refine ⟨FineGrainedList.insert_eq_orderedInsert l v,
    FineGrainedList.length_insert l v, ?_, ?_,
    FineGrainedList.sorted_insert v hs, ?_⟩
  · rw [FineGrainedList.count_insert]
    simp
  · intro w hw
    rw [FineGrainedList.count_insert]
    simp [Ne.symm hw]
  · rw [MarkedList.values_insertChain, hvc]

/-- Witness for C2 at the concrete sorted state `[3]` with a duplicate
insert of `3`. -/
theorem spec_C2_witness :
    FineGrainedList.insert [3] 3 = specSortedInsert 3 [3] ∧
    (FineGrainedList.insert [3] 3).length = [(3 : Int)].length + 1 ∧
    List.count 3 (FineGrainedList.insert [3] 3) = List.count 3 [(3 : Int)] + 1 ∧
    (∀ w, w ≠ 3 → List.count w (FineGrainedList.insert [3] 3) = List.count w [(3 : Int)]) ∧
    List.Sorted (· ≤ ·) (FineGrainedList.insert [3] 3) ∧
    MarkedList.values (MarkedList.insertChain 1 [⟨0, 3, false⟩] 3) = FineGrainedList.insert [3] 3 :=
  spec_C2 [3] [⟨0, 3, false⟩] 1 3 (by decide) (by decide)

/-- C3: from any sorted state, if `v` is reachable then `remove(v)`
returns true, unlinks exactly the first node holding `v` (count of `v`
down one, other counts unchanged), and otherwise returns false with the
state unchanged; the lazy chain removal returns the identical boolean and
value sequence. -/
theorem spec_C3 (l : List Int) (c : List MarkedList.MNode) (v : Int)
    (hs : List.Sorted (· ≤ ·) l) (hvc : MarkedList.values c = l) :
    (v ∈ l →
      (FineGrainedList.remove l v).1 = true ∧
      (FineGrainedList.remove l v).2 = l.erase v ∧
      List.count v (FineGrainedList.remove l v).2 + 1 = List.count v l ∧
      (∀ w, w ≠ v → List.count w (FineGrainedList.remove l v).2 = List.count w l)) ∧
    (v ∉ l → FineGrainedList.remove l v = (false, l)) ∧
    (MarkedList.removeChain c v).1 = (FineGrainedList.remove l v).1 ∧
    MarkedList.values (MarkedList.removeChain c v).2.1 = (FineGrainedList.remove l v).2 := by
  refine ⟨?_, ?_, ?_, ?_⟩
  · intro hm
    refine ⟨?_, FineGrainedList.remove_snd v hs, ?_, ?_⟩
    · rw [FineGrainedList.remove_bool v hs]
      simp [hm]
    · rw [FineGrainedList.remove_snd v hs, List.count_erase]
      have hpos : 0 < List.count v l := List.count_pos_iff.mpr hm
      simp
      omega
    · intro w hw
      rw [FineGrainedList.remove_snd v hs, List.count_erase]
      simp [Ne.symm hw]
  · intro hnm
    have h1 : (FineGrainedList.remove l v).1 = false := by
      rw [FineGrainedList.remove_bool v hs]
      simp [hnm]
    have h2 : (FineGrainedList.remove l v).2 = l := by
      rw [FineGrainedList.remove_snd v hs, List.erase_of_not_mem hnm]
    rw [Prod.ext_iff]
    exact ⟨h1, h2⟩
  · rw [MarkedList.removeChain_fst, hvc]
  · rw [MarkedList.removeChain_values, hvc]

/-- Witness for C3 at the concrete sorted state `[5]` with `remove(5)`. -/
theorem spec_C3_witness :
    ((5 : Int) ∈ [(5 : Int)] →
      (FineGrainedList.remove [5] 5).1 = true ∧
      (FineGrainedList.remove [5] 5).2 = [(5 : Int)].erase 5 ∧
      List.count 5 (FineGrainedList.remove [5] 5).2 + 1 = List.count 5 [(5 : Int)] ∧
      (∀ w, w ≠ 5 → List.count w (FineGrainedList.remove [5] 5).2 = List.count w [(5 : Int)])) ∧
    ((5 : Int) ∉ [(5 : Int)] → FineGrainedList.remove [5] 5 = (false, [5])) ∧
    (MarkedList.removeChain [⟨0, 5, false⟩] 5).1 = (FineGrainedList.remove [5] 5).1 ∧
    MarkedList.values (MarkedList.removeChain [⟨0, 5, false⟩] 5).2.1 = (FineGrainedList.remove [5] 5).2 :=
  spec_C3 [5] [⟨0, 5, false⟩] 5 (by decide) (by decide)

/-- C4 as frozen is refuted at `insert(-5)`: the chain read with the
sentinel (value `-1`) included is `[-1, -5]`, which is not
non-decreasing. -/
theorem spec_C4_counterexample :
    ¬ List.Sorted (· ≤ ·) (FineGrainedList.fullChain (FineGrainedList.run [Op.ins (-5)])) := by
  decide

/-- C4 amended: after any single-threaded history from the empty set the
snapshot of either variant is non-decreasing, and the chain including the
sentinel is non-decreasing provided every inserted value is at least the
sentinel value `-1`. -/
theorem spec_C4 (ops : List Op) :
    List.Sorted (· ≤ ·) (FineGrainedList.run ops) ∧
    List.Sorted (· ≤ ·) (MarkedList.snapshot (MarkedList.run ops)) ∧
    ((∀ v ∈ insertedValues ops, sentinelValue ≤ v) →
      List.Sorted (· ≤ ·) (FineGrainedList.fullChain (FineGrainedList.run ops))) := by
  have hfg := FineGrainedList.sorted_run ops
  refine ⟨hfg, ?_, ?_⟩
  · rw [MarkedList.snapshot_eq (MarkedList.good_run ops).1, MarkedList.values_run]
    exact hfg
  · intro hall
    rw [FineGrainedList.fullChain, List.sorted_cons]
    refine ⟨?_, hfg⟩
    intro b hb
    rcases FineGrainedList.mem_runFrom ops [] hb with h2 | h2
    · simp at h2
    · exact hall b h2

/-- Witness for C4 with the inner bound discharged at `insert(3)`. -/
theorem spec_C4_witness :
    List.Sorted (· ≤ ·) (FineGrainedList.fullChain (FineGrainedList.run [Op.ins 3])) :=
  (spec_C4 [Op.ins 3]).2.2 (by decide)

/-- C5: `MarkedList::validate(pred, curr)` returns true exactly when
`pred` is unmarked, `curr` (when non-null) is unmarked, and `pred->next`
points at `curr`. -/
theorem spec_C5 (pred : MarkedList.VNode) (curr : Option MarkedList.VNode) :
    MarkedList.validate pred curr = true ↔
      pred.removed = false ∧ (∀ c, curr = some c → c.removed = false) ∧
      pred.next = Option.map MarkedList.VNode.addr curr := by
  cases curr with
  | none => simp [MarkedList.validate]
  | some c => simp [MarkedList.validate, and_assoc]

/-- C6: both variants implement the same contract: after any
single-threaded history from the empty set, the snapshots coincide and
every `contains` and `remove` call answers identically. -/
theorem spec_C6 (ops : List Op) :
    MarkedList.snapshot (MarkedList.run ops) = FineGrainedList.run ops ∧
    (∀ v, MarkedList.contains (MarkedList.run ops) v =
      FineGrainedList.contains (FineGrainedList.run ops) v) ∧
    (∀ v, (MarkedList.remove (MarkedList.run ops) v).1 =
      (FineGrainedList.remove (FineGrainedList.run ops) v).1) := by
  have hok := (MarkedList.good_run ops).1
  have hv := MarkedList.values_run ops
  refine ⟨?_, ?_, ?_⟩
  · rw [MarkedList.snapshot_eq hok, hv]
  · intro v
    rw [MarkedList.contains_eq v hok, hv]
  · intro v
    rw [MarkedList.remove_fst_eq, hv]

/-- C7: on the lazy variant, a successful `remove(v)` detaches a node
carrying `removed = true` and value `v`, keeps it in memory (graveyard)
instead of freeing it, and that specific node (by allocation identifier)
is never observed reachable again by any later operation; moreover after
any history every reachable node has `removed = false`. -/
theorem spec_C7 (ops : List Op) (v : Int)
    (h : (MarkedList.remove (MarkedList.run ops) v).1 = true) :
    (∃ n, (MarkedList.removeChain (MarkedList.run ops).chain v).2.2 = some n ∧
      n.removed = true ∧ n.value = v ∧
      n ∈ (MarkedList.remove (MarkedList.run ops) v).2.graveyard ∧
      (∀ more, n.id ∉
        ((MarkedList.runFrom (MarkedList.remove (MarkedList.run ops) v).2 more).chain.map
          MarkedList.MNode.id))) ∧
    (∀ more, MarkedList.chainOK (MarkedList.run more).chain) := by
  obtain ⟨hok, hlt, hnd⟩ := MarkedList.good_run ops
  have hfst : (MarkedList.removeChain (MarkedList.run ops).chain v).1 = true := h
  obtain ⟨n, hsome, hrm, hval, hid⟩ := MarkedList.removeChain_detach v hfst
  refine ⟨⟨n, hsome, hrm, hval, ?_, ?_⟩, fun more => (MarkedList.good_run more).1⟩
  · simp [MarkedList.remove, hsome]
  · intro more
    have hnotmem := MarkedList.removeChain_id_not_mem v hnd hsome
    have hstart : ∀ m ∈ (MarkedList.remove (MarkedList.run ops) v).2.chain, m.id ≠ n.id := by
      intro m hm he
      exact hnotmem (List.mem_map.mpr ⟨m, hm, he⟩)
    have hmlt : n.id < (MarkedList.remove (MarkedList.run ops) v).2.nextId := by
      obtain ⟨m, hm, hme⟩ := List.mem_map.mp hid
      have := hlt m hm
      simp only [MarkedList.remove]
      omega
    intro hmem
    obtain ⟨m, hm, hme⟩ := List.mem_map.mp hmem
    exact MarkedList.id_fresh_runFrom more hmlt hstart m hm hme

/-- Witness for C7 at the history `insert(5)` followed by `remove(5)`. -/
theorem spec_C7_witness :
    (MarkedList.remove (MarkedList.run [Op.ins 5]) 5).1 = true ∧
    ((∃ n, (MarkedList.removeChain (MarkedList.run [Op.ins 5]).chain 5).2.2 = some n ∧
      n.removed = true ∧ n.value = 5 ∧
      n ∈ (MarkedList.remove (MarkedList.run [Op.ins 5]) 5).2.graveyard ∧
      (∀ more, n.id ∉
        ((MarkedList.runFrom (MarkedList.remove (MarkedList.run [Op.ins 5]) 5).2 more).chain.map
          MarkedList.MNode.id))) ∧
    (∀ more, MarkedList.chainOK (MarkedList.run more).chain)) :=
  ⟨by decide, spec_C7 [Op.ins 5] 5 (by decide)⟩

/-- C8 as frozen is refuted: the sentinel's stored value `-1` is not
outside the valid input domain — every integer is a valid input, and
inserting `-1` then querying it succeeds against a real node. -/
theorem spec_C8_counterexample :
    validInput sentinelValue ∧ sentinelValue = -1 ∧
    FineGrainedList.contains (FineGrainedList.insert [] sentinelValue) sentinelValue = true :=
  ⟨trivial, rfl, by decide⟩

/-- C8 amended: the sentinel's value `-1` lies inside the valid input
domain, yet the sentinel node itself is never matched by `contains`,
never removed by `remove` (both only ever match reachable chain nodes),
and remains the head of the full chain after every history. -/
theorem spec_C8 (ops : List Op) :
    validInput sentinelValue ∧
    (FineGrainedList.fullChain (FineGrainedList.run ops)).head? = some sentinelValue ∧
    FineGrainedList.contains [] sentinelValue = false ∧
    (FineGrainedList.remove [] sentinelValue).1 = false ∧
    MarkedList.contains MarkedList.initState sentinelValue = false ∧
    (MarkedList.remove MarkedList.initState sentinelValue).1 = false ∧
    (∀ l, FineGrainedList.contains l sentinelValue = true → sentinelValue ∈ l) ∧
    (∀ l, (FineGrainedList.remove l sentinelValue).1 = true → sentinelValue ∈ l) := by
  refine ⟨trivial, rfl, by decide, by decide, by decide, by decide, ?_, ?_⟩
  · exact fun l => FineGrainedList.contains_true_mem l sentinelValue
  · exact fun l => FineGrainedList.remove_true_mem l sentinelValue

/-- Witness for C8: the inner implications discharged at the concrete
chain `[-1]`, plus the head-of-chain fact after a `remove(-1)` history. -/
theorem spec_C8_witness :
    sentinelValue ∈ ([-1] : List Int) ∧
    (FineGrainedList.fullChain (FineGrainedList.run [Op.rem (-1)])).head? = some sentinelValue :=
  ⟨(spec_C8 []).2.2.2.2.2.2.1 [-1] (by decide), (spec_C8 [Op.rem (-1)]).2.1⟩

/-- C9: the concrete scenario chain of §8: three inserts give snapshot
`[5, 10, 20]` with `contains(10)` true; `remove(10)` succeeds leaving
`[5, 20]` with `contains(10)` false; `remove(99)` fails and changes
nothing — on both variants. -/
theorem spec_C9 :
    FineGrainedList.run [Op.ins 10, Op.ins 5, Op.ins 20] = [5, 10, 20] ∧
    FineGrainedList.contains [5, 10, 20] 10 = true ∧
    FineGrainedList.remove [5, 10, 20] 10 = (true, [5, 20]) ∧
    FineGrainedList.contains [5, 20] 10 = false ∧
    FineGrainedList.remove [5, 20] 99 = (false, [5, 20]) ∧
    MarkedList.snapshot (MarkedList.run [Op.ins 10, Op.ins 5, Op.ins 20]) = [5, 10, 20] ∧
    MarkedList.contains (MarkedList.run [Op.ins 10, Op.ins 5, Op.ins 20]) 10 = true ∧
    (MarkedList.remove (MarkedList.run [Op.ins 10, Op.ins 5, Op.ins 20]) 10).1 = true ∧
    MarkedList.contains (MarkedList.remove (MarkedList.run [Op.ins 10, Op.ins 5, Op.ins 20]) 10).2 10 = false ∧
    MarkedList.snapshot (MarkedList.remove (MarkedList.run [Op.ins 10, Op.ins 5, Op.ins 20]) 10).2 = [5, 20] ∧
    (MarkedList.remove (MarkedList.remove (MarkedList.run [Op.ins 10, Op.ins 5, Op.ins 20]) 10).2 99).1 = false ∧
    (MarkedList.remove (MarkedList.remove (MarkedList.run [Op.ins 10, Op.ins 5, Op.ins 20]) 10).2 99).2 =
      (MarkedList.remove (MarkedList.run [Op.ins 10, Op.ins 5, Op.ins 20]) 10).2 := by
  decide

/-- C10: sequentially every operation terminates; on the lazy variant,
from any state whose reachable nodes are unmarked, validation succeeds on
the first attempt, so each retry loop returns after exactly one iteration
(fuel 1 suffices); on the lock-coupling variant the traversal effect is
bounded by the list length. -/
theorem spec_C10 (s : MarkedList.State) (v : Int) (h : MarkedList.chainOK s.chain) :
    MarkedList.insertLoop 1 s v = some (MarkedList.insert s v) ∧
    MarkedList.removeLoop 1 s v = some (MarkedList.remove s v) ∧
    MarkedList.containsLoop 1 s v = some (MarkedList.contains s v) ∧
    MarkedList.seqValidate s.chain v = true ∧
    (∀ l : List Int, (FineGrainedList.remove l v).2.length ≤ l.length ∧
      (FineGrainedList.insert l v).length = l.length + 1) := by
  refine ⟨MarkedList.insertLoop_one v h, MarkedList.removeLoop_one v h,
    MarkedList.containsLoop_one v h, MarkedList.seqValidate_true v h, ?_⟩
  intro l
  exact ⟨(FineGrainedList.remove_sublist l v).length_le, FineGrainedList.length_insert l v⟩

/-- Witness for C10 at the state reached by `insert(5)` and value `7`. -/
theorem spec_C10_witness :
    MarkedList.chainOK (MarkedList.run [Op.ins 5]).chain ∧
    MarkedList.insertLoop 1 (MarkedList.run [Op.ins 5]) 7 =
      some (MarkedList.insert (MarkedList.run [Op.ins 5]) 7) :=
  ⟨by simp only [MarkedList.chainOK]; decide,
    (spec_C10 (MarkedList.run [Op.ins 5]) 7 (by simp only [MarkedList.chainOK]; decide)).1⟩
